import Mathlib

/-!
Verification of the grid pathfinding and movement-execution engine of the
workshop app.

The development shallowly embeds:
* `findPath` from `src/map-2/ai.js` (identical copy in `src/unnamed/part_006`):
  breadth-first search over a `width × height` grid whose trap cells are
  impassable.  The JS `while (queue.length > 0)` loop is embedded as a
  fuel-indexed recursion `bfsAux`; `bfsFuel` is proven sufficient, so the
  top-level `findPath` computes exactly what the source loop computes.
* the movement executor `moveRobot` and the command-sequence loop of
  `setupRobotMoverButton` from `src/game.js`.
* the arrow-token extraction of `fetchRoutePathWithOpenAI` from
  `src/ai-fetch.js` (the `messageContent.match(/[↑↓←→]+/g)` step).
* the older BFS variant `findPath(start, end, mapLayout)` from the second
  document of `src/map-1/map.js` (namespace `Map1`).

Machine numbers are embedded as `Int` (the JS code only ever handles small
integers here, and `Math.round` on already-integral coordinates is the
identity).  The JS `Set` of visited `"x,y"` strings is embedded as a
`Finset (ℤ × ℤ)`; string keys in the source are in bijection with the
coordinate pairs they encode.
-/

/-- Map configuration record, the argument of `findPath` in `src/map-2/ai.js`:
`{ width, height, start, goal, traps }` with coordinates as `(x, y)` pairs. -/
structure MapConfig where
  width : ℤ
  height : ℤ
  start : ℤ × ℤ
  goal : ℤ × ℤ
  traps : List (ℤ × ℤ)
deriving DecidableEq

/-- One entry of the `dirs` array of `findPath`: displacement `(dx, dz)` plus
the arrow character pushed onto the path. -/
structure DirEntry where
  dx : ℤ
  dz : ℤ
  name : String
deriving DecidableEq

/-- The `dirs` array from `src/map-2/ai.js` lines 6-11, in source order:
Right, Left, Down (positive z), Up (negative z). -/
def dirs : List DirEntry :=
  [⟨1, 0, "→"⟩, ⟨-1, 0, "←"⟩, ⟨0, 1, "↓"⟩, ⟨0, -1, "↑"⟩]

/-- The bounds test `nx >= 0 && nx < width && ny >= 0 && ny < height` used in
the BFS neighbour check (lines 37-39 of `src/map-2/ai.js`). -/
def inBoundsB (cfg : MapConfig) (p : ℤ × ℤ) : Bool :=
  decide (0 ≤ p.1) && decide (p.1 < cfg.width) &&
    decide (0 ≤ p.2) && decide (p.2 < cfg.height)

/-- The `passable` array of `findPath` (lines 13-20), as a characteristic
function: all cells start `true`, then every trap whose coordinates are in
bounds is set to `false`.  `passableB cfg p` is the value `passable[p.1][p.2]`
for any `p` the loop actually queries (queries only happen in bounds). -/
def passableB (cfg : MapConfig) (p : ℤ × ℤ) : Bool :=
  !(cfg.traps.any fun t => inBoundsB cfg t && decide (t = p))

/-- A cell the BFS may enter: in bounds and passable. -/
def okCellB (cfg : MapConfig) (p : ℤ × ℤ) : Bool :=
  inBoundsB cfg p && passableB cfg p

/-- A BFS frontier entry `{ x, y, path }`: coordinate plus path so far. -/
abbrev BfsNode := (ℤ × ℤ) × List String

/-- Body of the `for (const d of dirs)` loop of `findPath` (lines 33-46): given
the dequeued `node`, try one direction `d`; if the neighbour is in bounds,
passable and unvisited, mark it visited and push it at the back of the queue
with the extended path (`node.path.concat(d.name)`). -/
def enqueueStep (cfg : MapConfig) (node : BfsNode)
    (acc : List BfsNode × Finset (ℤ × ℤ)) (d : DirEntry) :
    List BfsNode × Finset (ℤ × ℤ) :=
  let q := (node.1.1 + d.dx, node.1.2 + d.dz)
  if inBoundsB cfg q && passableB cfg q && !(decide (q ∈ acc.2)) then
    (acc.1 ++ [(q, node.2 ++ [d.name])], insert q acc.2)
  else acc

/-- The full neighbour expansion of one dequeued node: the inner `for` loop
folded over `dirs`, threading the queue (initially the rest of the queue after
`shift()`) and the visited set. -/
def expandAll (cfg : MapConfig) (node : BfsNode)
    (acc : List BfsNode × Finset (ℤ × ℤ)) (ds : List DirEntry) :
    List BfsNode × Finset (ℤ × ℤ) :=
  List.foldl (enqueueStep cfg node) acc ds

/-- The `while (queue.length > 0)` loop of `findPath` (lines 26-47), indexed by
fuel.  `none` means the fuel ran out with the loop still running (never happens
for the fuel used by `findPath`, see `bfsAux_total`); `some none` is the
`return null` after the loop; `some (some path)` is the `return node.path` on
reaching the goal. -/
def bfsAux (cfg : MapConfig) :
    Nat → List BfsNode → Finset (ℤ × ℤ) → Option (Option (List String))
  | 0, _, _ => none
  | fuel + 1, queue, visited =>
    match queue with
    | [] => some none
    | node :: rest =>
      if node.1 = cfg.goal then some (some node.2)
      else
        let acc := expandAll cfg node (rest, visited) dirs
        bfsAux cfg fuel acc.1 acc.2

/-- Fuel sufficient for the BFS loop to drain its queue: each iteration
strictly decreases `(unvisited in-bounds cells) + (queue length)`. -/
def bfsFuel (cfg : MapConfig) : Nat :=
  cfg.width.toNat * cfg.height.toNat + 2

/-- `findPath` from `src/map-2/ai.js`: BFS from `start`, queue seeded with
`{ x: start.x, y: start.y, path: [] }` and visited seeded with the start key.
Returns the path of the first dequeued node equal to `goal`, or `null`
(`none`) when the queue drains. -/
def findPath (cfg : MapConfig) : Option (List String) :=
  (bfsAux cfg (bfsFuel cfg) [(cfg.start, [])] {cfg.start}).getD none

/-- The displacement named by an arrow token, read off the `dirs` table. -/
def moveOffset (m : String) : Option (ℤ × ℤ) :=
  (dirs.find? fun d => d.name == m).map fun d => (d.dx, d.dz)

/-- The cell reached from `p` by one arrow token, when the token is one of the
four directions. -/
def stepPos (p : ℤ × ℤ) (m : String) : Option (ℤ × ℤ) :=
  (moveOffset m).map fun o => (p.1 + o.1, p.2 + o.2)

/-- `pathGoesB cfg s ms g` holds when the move list `ms` walks from `s` to `g`
with every stepped-onto cell in bounds and passable — the routes the BFS of
`findPath` searches over. -/
def pathGoesB (cfg : MapConfig) : (ℤ × ℤ) → List String → (ℤ × ℤ) → Bool
  | p, [], g => p == g
  | p, m :: ms, g =>
    match stepPos p m with
    | some q => okCellB cfg q && pathGoesB cfg q ms g
    | none => false

/-- `routeGoesB cfg s ms g` holds when `ms` walks from `s` to `g` with every
stepped-onto cell merely in bounds (traps allowed): an arbitrary
four-connected route through the grid. -/
def routeGoesB (cfg : MapConfig) : (ℤ × ℤ) → List String → (ℤ × ℤ) → Bool
  | p, [], g => p == g
  | p, m :: ms, g =>
    match stepPos p m with
    | some q => inBoundsB cfg q && routeGoesB cfg q ms g
    | none => false

/-- The cells visited by a move list after each step (the start cell itself is
not listed; an unrecognized token ends the walk). -/
def movePositions : (ℤ × ℤ) → List String → List (ℤ × ℤ)
  | _, [] => []
  | p, m :: ms =>
    match stepPos p m with
    | some q => q :: movePositions q ms
    | none => []

/-- Whether `p` is one of the configured trap coordinates. -/
def isTrapB (cfg : MapConfig) (p : ℤ × ℤ) : Bool :=
  cfg.traps.any fun t => t = p

/-- The finite set of in-bounds cells of the grid. -/
def boundsF (cfg : MapConfig) : Finset (ℤ × ℤ) :=
  Finset.Ico 0 cfg.width ×ˢ Finset.Ico 0 cfg.height

/-- One BFS edge: `q` is an in-bounds passable neighbour of `p` in one of the
four directions. -/
def StepOk (cfg : MapConfig) (p q : ℤ × ℤ) : Prop :=
  ∃ d ∈ dirs, q = (p.1 + d.dx, p.2 + d.dz) ∧ okCellB cfg q = true

/-- Loop invariant of the BFS of `findPath`, relating the queue and the
visited set to the search graph. -/
structure BfsInv (cfg : MapConfig) (queue : List BfsNode)
    (visited : Finset (ℤ × ℤ)) : Prop where
  start_mem : cfg.start ∈ visited
  nodes_visited : ∀ n ∈ queue, n.1 ∈ visited
  nodes_valid : ∀ n ∈ queue, pathGoesB cfg cfg.start n.2 n.1 = true
  nodes_min : ∀ n ∈ queue, ∀ π, pathGoesB cfg cfg.start π n.1 = true →
    n.2.length ≤ π.length
  sortedQ : List.Sorted (· ≤ ·) (queue.map fun n => n.2.length)
  spread : ∀ n ∈ queue, ∀ n' ∈ queue, n.2.length ≤ n'.2.length + 1
  visited_closed : ∀ v ∈ visited, (∀ n ∈ queue, n.1 ≠ v) →
    ∀ q, StepOk cfg v q → q ∈ visited
  goal_pending : cfg.goal ∈ visited → ∃ n ∈ queue, n.1 = cfg.goal

namespace Map1

/-- The neighbour list of the BFS in the second document of
`src/map-1/map.js` (lines 34-40), in source order: Up, Down, Left, Right. -/
def neighbors (x y : ℤ) : List (ℤ × ℤ) :=
  [(x, y - 1), (x, y + 1), (x - 1, y), (x + 1, y)]

/-- The neighbour acceptance test of that BFS: in bounds for the layout
(width is the length of row 0, height the number of rows), not a `#` wall,
and not visited.  `mapLayout[y][x]` is read through `getD` after the bounds
test, as the source indexes the array only for in-bounds coordinates. -/
def accepts (mapLayout : List (List Char)) (visited : Finset (ℤ × ℤ))
    (nb : ℤ × ℤ) : Bool :=
  decide (0 ≤ nb.1) && decide (nb.1 < ((mapLayout.headD []).length : ℤ)) &&
    decide (0 ≤ nb.2) && decide (nb.2 < (mapLayout.length : ℤ)) &&
    ((mapLayout.getD nb.2.toNat []).getD nb.1.toNat ' ' != '#') &&
    !(decide (nb ∈ visited))

/-- The `while (queue.length > 0)` loop of the map-1 BFS, fuel-indexed like
`bfsAux`.  Queue entries are whole coordinate paths; the current cell is the
last entry of the dequeued path (`path[path.length - 1]`). -/
def findPathAux (mapLayout : List (List Char)) (endP : ℤ × ℤ) :
    Nat → List (List (ℤ × ℤ)) → Finset (ℤ × ℤ) →
      Option (Option (List (ℤ × ℤ)))
  | 0, _, _ => none
  | fuel + 1, queue, visited =>
    match queue with
    | [] => some none
    | path :: rest =>
      let cur := path.getLastD (0, 0)
      if cur = endP then some (some path)
      else
        let acc := (neighbors cur.1 cur.2).foldl
          (fun (acc : List (List (ℤ × ℤ)) × Finset (ℤ × ℤ)) nb =>
            if accepts mapLayout acc.2 nb then
              (acc.1 ++ [path ++ [nb]], insert nb acc.2)
            else acc)
          (rest, visited)
        findPathAux mapLayout endP fuel acc.1 acc.2

/-- `findPath(start, end, mapLayout)` from `src/map-1/map.js`: BFS over the
character layout, queue seeded with `[[start]]`, returning the coordinate
path reaching `end`, or `null` when the queue drains. -/
def findPath (start endP : ℤ × ℤ) (mapLayout : List (List Char)) :
    Option (List (ℤ × ℤ)) :=
  (findPathAux mapLayout endP
    ((mapLayout.headD []).length * mapLayout.length + 2)
    [[start]] {start}).getD none

end Map1

/-- Per-step result of the movement executor, reifying the five outcomes of
the specification plus the silent skip of an unrecognized direction token
(the early return at lines 813-816 of `src/game.js`). -/
inductive MovementOutcome where
  | moved
  | blockedByBounds
  | blockedByObstacle
  | reachedGoal
  | triggeredTrap
  | unknownDirection
deriving DecidableEq

/-- Terminal outcomes end the multi-step run. -/
def isTerminalB (o : MovementOutcome) : Bool :=
  o == MovementOutcome.reachedGoal || o == MovementOutcome.triggeredTrap

/-- The fields of the `GameContext` that `moveRobot` and the move loop read:
grid dimensions, obstacle and trap coordinate lists (as `(x, y)` pairs whose
`y` is the 3D `z`), and `context.position.end`, the goal coordinate. -/
structure GameContext where
  mapDisplayWidth : ℤ
  mapDisplayHeight : ℤ
  objectPositions : List (ℤ × ℤ)
  trapPositions : List (ℤ × ℤ)
  positionEnd : ℤ × ℤ
deriving DecidableEq

/-- Mutable state owned by the caller of `moveRobot`: the robot grid
position `(x, z)` (the source stores it in a 3D vector whose coordinates are
integral at every step boundary) and the `isGameFinished` flag of the
context. -/
structure RobotState where
  pos : ℤ × ℤ
  isGameFinished : Bool
deriving DecidableEq

/-- The `directionConfig` table of `moveRobot` (lines 805-810 of
`src/game.js`), restricted to the displacement fields; the `rotation` field
only drives the excluded animation layer.  Unknown keys yield `none`
(`config` is `undefined`). -/
def directionConfig (d : String) : Option (ℤ × ℤ) :=
  if d = "→" then some (1, 0)
  else if d = "←" then some (-1, 0)
  else if d = "↑" then some (0, -1)
  else if d = "↓" then some (0, 1)
  else none

/-- The `isOutOfBounds` test of `moveRobot` (lines 830-834). -/
def isOutOfBounds (ctx : GameContext) (p : ℤ × ℤ) : Bool :=
  decide (p.1 < 0) || decide (p.1 ≥ ctx.mapDisplayWidth) ||
    decide (p.2 < 0) || decide (p.2 ≥ ctx.mapDisplayHeight)

/-- The obstacle collision test of `moveRobot` (lines 844-846). -/
def isObstacleAt (ctx : GameContext) (p : ℤ × ℤ) : Bool :=
  ctx.objectPositions.any fun o => o.1 == p.1 && o.2 == p.2

/-- The trap collision test of `moveRobot` (lines 853-855). -/
def isTrapAt (ctx : GameContext) (p : ℤ × ℤ) : Bool :=
  ctx.trapPositions.any fun t => t.1 == p.1 && t.2 == p.2

/-- One step of `moveRobot` from `src/game.js` (lines 793-918), with the
animation interpolation elided: unknown direction returns early leaving the
state untouched; an out-of-bounds or obstacle target returns early before the
move is committed; otherwise the position is committed to the target and only
then the trap and goal checks run, setting `isGameFinished`. -/
def moveRobot (ctx : GameContext) (st : RobotState) (direction : String) :
    RobotState × MovementOutcome :=
  match directionConfig direction with
  | none => (st, MovementOutcome.unknownDirection)
  | some (dx, dz) =>
    let targetX := st.pos.1 + dx
    let targetZ := st.pos.2 + dz
    if isOutOfBounds ctx (targetX, targetZ) then
      (st, MovementOutcome.blockedByBounds)
    else if isObstacleAt ctx (targetX, targetZ) then
      (st, MovementOutcome.blockedByObstacle)
    else if isTrapAt ctx (targetX, targetZ) then
      (⟨(targetX, targetZ), true⟩, MovementOutcome.triggeredTrap)
    else if targetX = ctx.positionEnd.1 ∧ targetZ = ctx.positionEnd.2 then
      (⟨(targetX, targetZ), true⟩, MovementOutcome.reachedGoal)
    else
      (⟨(targetX, targetZ), st.isGameFinished⟩, MovementOutcome.moved)

/-- The command-sequence loop of `setupRobotMoverButton` (lines 1096-1140 of
`src/game.js`), sequentialized: the promise chain executes the moves strictly
one after another, and before every move it re-checks `isGameFinished` and
stops without executing further commands once the flag is set.  The outcome
list reifies, per executed step, which `moveRobot` branch ran. -/
def runMoveSequence (ctx : GameContext) (st : RobotState) :
    List String → RobotState × List MovementOutcome
  | [] => (st, [])
  | m :: ms =>
    if st.isGameFinished then (st, [])
    else
      let r := moveRobot ctx st m
      let rest := runMoveSequence ctx r.1 ms
      (rest.1, r.2 :: rest.2)

/-- The four characters of the extraction regex `[↑↓←→]` of
`fetchRoutePathWithOpenAI` (`src/ai-fetch.js` line 198). -/
def isArrowChar (c : Char) : Bool :=
  c == '↑' || c == '↓' || c == '←' || c == '→'

/-- Prepend a character onto the first run of a run list (used when the
character extends the maximal run that starts right after it). -/
def consRun (c : Char) : List (List Char) → List (List Char)
  | r :: rs => (c :: r) :: rs
  | [] => [[c]]

/-- Whether a character list opens with an arrow character. -/
def headIsArrow : List Char → Bool
  | c :: _ => isArrowChar c
  | [] => false

/-- The maximal nonempty runs of arrow characters in a character list: what
`messageContent.match(/[↑↓←→]+/g)` produces (as a list instead of
`null`/array, see `extractRouteMoves`).  An arrow character followed by
another arrow extends the run that the rest of the string opens with;
otherwise it opens a fresh singleton run. -/
def arrowRuns : List Char → List (List Char)
  | [] => []
  | c :: cs =>
    if isArrowChar c then
      if headIsArrow cs then consRun c (arrowRuns cs)
      else [c] :: arrowRuns cs
    else arrowRuns cs

/-- The move extraction of `fetchRoutePathWithOpenAI` (lines 191-205 of
`src/ai-fetch.js`): `messageContent.match(/[↑↓←→]+/g)` yields the maximal
arrow runs, or `null` when there is no arrow at all, in which case the
function warns and returns `null` (`none`). -/
def extractRouteMoves (messageContent : String) : Option (List String) :=
  let moves := (arrowRuns messageContent.toList).map fun r => String.mk r
  if moves.isEmpty then none else some moves

/-! Basic facts about bounds, moves and paths. -/

theorem inBoundsB_iff_mem_boundsF (cfg : MapConfig) (p : ℤ × ℤ) :
    inBoundsB cfg p = true ↔ p ∈ boundsF cfg := by
  simp [inBoundsB, boundsF, Finset.mem_product, Finset.mem_Ico, and_assoc]

theorem pathGoesB_nil_iff (cfg : MapConfig) (s g : ℤ × ℤ) :
    pathGoesB cfg s [] g = true ↔ s = g := by
  simp [pathGoesB]

theorem pathGoesB_cons_iff (cfg : MapConfig) (s g : ℤ × ℤ) (m : String)
    (ms : List String) :
    pathGoesB cfg s (m :: ms) g = true ↔
      ∃ q, stepPos s m = some q ∧ okCellB cfg q = true ∧
        pathGoesB cfg q ms g = true := by
  cases h : stepPos s m with
  | none => simp [pathGoesB, h]
  | some q => simp [pathGoesB, h]

theorem routeGoesB_nil_iff (cfg : MapConfig) (s g : ℤ × ℤ) :
    routeGoesB cfg s [] g = true ↔ s = g := by
  simp [routeGoesB]

theorem routeGoesB_cons_iff (cfg : MapConfig) (s g : ℤ × ℤ) (m : String)
    (ms : List String) :
    routeGoesB cfg s (m :: ms) g = true ↔
      ∃ q, stepPos s m = some q ∧ inBoundsB cfg q = true ∧
        routeGoesB cfg q ms g = true := by
  cases h : stepPos s m with
  | none => simp [routeGoesB, h]
  | some q => simp [routeGoesB, h]

theorem dirs_find?_name {d : DirEntry} (hd : d ∈ dirs) :
    dirs.find? (fun d' => d'.name == d.name) = some d := by
  fin_cases hd <;> rfl

theorem stepPos_of_dir {d : DirEntry} (hd : d ∈ dirs) (p : ℤ × ℤ) :
    stepPos p d.name = some (p.1 + d.dx, p.2 + d.dz) := by
  simp [stepPos, moveOffset, dirs_find?_name hd]

theorem stepPos_mem_dirs {p q : ℤ × ℤ} {m : String}
    (h : stepPos p m = some q) :
    ∃ d ∈ dirs, d.name = m ∧ q = (p.1 + d.dx, p.2 + d.dz) := by
  simp only [stepPos, moveOffset, Option.map_map, Option.map_eq_some'] at h
  obtain ⟨d, hfind, hq⟩ := h
  refine ⟨d, List.mem_of_find?_eq_some hfind, ?_, ?_⟩
  · have := List.find?_some hfind
    simpa using this.symm
  · simp [← hq]

theorem stepOk_of_stepPos (cfg : MapConfig) {p q : ℤ × ℤ} {m : String}
    (h : stepPos p m = some q) (hok : okCellB cfg q = true) :
    StepOk cfg p q := by
  obtain ⟨d, hd, -, hq⟩ := stepPos_mem_dirs h
  exact ⟨d, hd, hq, hq ▸ hok⟩

theorem pathGoesB_snoc_iff (cfg : MapConfig) (m : String) :
    ∀ (ms : List String) (s g : ℤ × ℤ),
      pathGoesB cfg s (ms ++ [m]) g = true ↔
        ∃ y, pathGoesB cfg s ms y = true ∧ stepPos y m = some g ∧
          okCellB cfg g = true := by
  intro ms
  induction ms with
  | nil =>
    intro s g
    constructor
    · intro h
      rw [List.nil_append, pathGoesB_cons_iff] at h
      obtain ⟨q, hq, hok, hnil⟩ := h
      rw [pathGoesB_nil_iff] at hnil
      subst hnil
      exact ⟨s, by rw [pathGoesB_nil_iff], hq, hok⟩
    · rintro ⟨y, hy, hstep, hok⟩
      rw [pathGoesB_nil_iff] at hy
      subst hy
      rw [List.nil_append, pathGoesB_cons_iff]
      exact ⟨g, hstep, hok, by rw [pathGoesB_nil_iff]⟩
  | cons a ms ih =>
    intro s g
    rw [List.cons_append, pathGoesB_cons_iff]
    constructor
    · rintro ⟨q, hq, hok, hrest⟩
      obtain ⟨y, hy, hstep, hokg⟩ := (ih q g).mp hrest
      refine ⟨y, ?_, hstep, hokg⟩
      rw [pathGoesB_cons_iff]
      exact ⟨q, hq, hok, hy⟩
    · rintro ⟨y, hy, hstep, hokg⟩
      rw [pathGoesB_cons_iff] at hy
      obtain ⟨q, hq, hok, hrest⟩ := hy
      exact ⟨q, hq, hok, (ih q g).mpr ⟨y, hrest, hstep, hokg⟩⟩

/-! Characterization of the neighbour-expansion fold. -/

theorem enqueueStep_cases (cfg : MapConfig) (node : BfsNode)
    (acc : List BfsNode × Finset (ℤ × ℤ)) (d : DirEntry) :
    (okCellB cfg (node.1.1 + d.dx, node.1.2 + d.dz) = true ∧
      (node.1.1 + d.dx, node.1.2 + d.dz) ∉ acc.2 ∧
      enqueueStep cfg node acc d =
        (acc.1 ++ [((node.1.1 + d.dx, node.1.2 + d.dz), node.2 ++ [d.name])],
          insert (node.1.1 + d.dx, node.1.2 + d.dz) acc.2)) ∨
    ((okCellB cfg (node.1.1 + d.dx, node.1.2 + d.dz) = false ∨
      (node.1.1 + d.dx, node.1.2 + d.dz) ∈ acc.2) ∧
      enqueueStep cfg node acc d = acc) := by
  by_cases hok : okCellB cfg (node.1.1 + d.dx, node.1.2 + d.dz) = true
  · by_cases hmem : (node.1.1 + d.dx, node.1.2 + d.dz) ∈ acc.2
    · refine Or.inr ⟨Or.inr hmem, ?_⟩
      simp only [okCellB, Bool.and_eq_true] at hok
      simp [enqueueStep, hok.1, hok.2, hmem]
    · refine Or.inl ⟨hok, hmem, ?_⟩
      simp only [okCellB, Bool.and_eq_true] at hok
      simp [enqueueStep, hok.1, hok.2, hmem]
  · refine Or.inr ⟨Or.inl (by simpa using hok), ?_⟩
    simp only [okCellB, Bool.and_eq_true, not_and] at hok
    by_cases hb : inBoundsB cfg (node.1.1 + d.dx, node.1.2 + d.dz) = true
    · simp [enqueueStep, hb, hok hb]
    · simp only [Bool.not_eq_true] at hb
      simp [enqueueStep, hb]

theorem expandAll_spec (cfg : MapConfig) (node : BfsNode) :
    ∀ (ds : List DirEntry) (acc : List BfsNode × Finset (ℤ × ℤ)),
    ∃ ns : List BfsNode,
      (expandAll cfg node acc ds).1 = acc.1 ++ ns ∧
      acc.2 ⊆ (expandAll cfg node acc ds).2 ∧
      (∀ n ∈ ns, ∃ d ∈ ds,
        n.1 = (node.1.1 + d.dx, node.1.2 + d.dz) ∧
        n.2 = node.2 ++ [d.name] ∧
        okCellB cfg n.1 = true ∧ n.1 ∉ acc.2) ∧
      (∀ n ∈ ns, n.1 ∈ (expandAll cfg node acc ds).2) ∧
      (∀ x ∈ (expandAll cfg node acc ds).2, x ∈ acc.2 ∨ ∃ n ∈ ns, n.1 = x) ∧
      (∀ d ∈ ds, okCellB cfg (node.1.1 + d.dx, node.1.2 + d.dz) = true →
        (node.1.1 + d.dx, node.1.2 + d.dz) ∈ (expandAll cfg node acc ds).2) := by
  intro ds
  induction ds with
  | nil =>
    intro acc
    refine ⟨[], by simp [expandAll], Finset.Subset.refl _, by simp, by simp,
      fun x hx => Or.inl hx, by simp⟩
  | cons d ds ih =>
    intro acc
    have hfold : expandAll cfg node acc (d :: ds) =
        expandAll cfg node (enqueueStep cfg node acc d) ds := by
      simp [expandAll, List.foldl_cons]
    rcases enqueueStep_cases cfg node acc d with
      ⟨hok, hnm, heq⟩ | ⟨hskip, heq⟩
    · -- the head direction enqueues a fresh node
      obtain ⟨ns', h1, h2, h3, h4, h5, h6⟩ := ih (enqueueStep cfg node acc d)
      rw [hfold]
      refine ⟨((node.1.1 + d.dx, node.1.2 + d.dz), node.2 ++ [d.name]) :: ns',
        ?_, ?_, ?_, ?_, ?_, ?_⟩
      · rw [h1, heq, List.append_assoc, List.singleton_append]
      · intro x hx
        apply h2
        rw [heq]
        exact Finset.mem_insert_of_mem hx
      · intro n hn
        rcases List.mem_cons.mp hn with rfl | hn'
        · exact ⟨d, List.mem_cons_self d ds, rfl, rfl, hok, hnm⟩
        · obtain ⟨d', hd', hpos, hpath, hok', hnm'⟩ := h3 n hn'
          refine ⟨d', List.mem_cons_of_mem d hd', hpos, hpath, hok', ?_⟩
          rw [heq] at hnm'
          intro hmem
          exact hnm' (Finset.mem_insert_of_mem hmem)
      · intro n hn
        rcases List.mem_cons.mp hn with rfl | hn'
        · apply h2
          rw [heq]
          exact Finset.mem_insert_self _ _
        · exact h4 n hn'
      · intro x hx
        rcases h5 x hx with hx' | ⟨n, hn, hnx⟩
        · rw [heq] at hx'
          rcases Finset.mem_insert.mp hx' with rfl | hx''
          · exact Or.inr ⟨_, List.mem_cons_self _ _, rfl⟩
          · exact Or.inl hx''
        · exact Or.inr ⟨n, List.mem_cons_of_mem _ hn, hnx⟩
      · intro d' hd' hok'
        rcases List.mem_cons.mp hd' with rfl | hd''
        · apply h2
          rw [heq]
          exact Finset.mem_insert_self _ _
        · exact h6 d' hd'' hok'
    · -- the head direction enqueues nothing
      obtain ⟨ns', h1, h2, h3, h4, h5, h6⟩ := ih (enqueueStep cfg node acc d)
      rw [hfold]
      rw [heq] at h1 h2 h3 h4 h5 h6 ⊢
      refine ⟨ns', h1, h2, ?_, h4, h5, ?_⟩
      · intro n hn
        obtain ⟨d', hd', hrest⟩ := h3 n hn
        exact ⟨d', List.mem_cons_of_mem d hd', hrest⟩
      · intro d' hd' hok'
        rcases List.mem_cons.mp hd' with rfl | hd''
        · rcases hskip with hbad | hmem
          · rw [hok'] at hbad
            exact absurd hbad (by simp)
          · exact h2 hmem
        · exact h6 d' hd'' hok'

/-! Termination: the BFS loop strictly decreases
`(unvisited in-bounds cells) + (queue length)` at every iteration. -/

theorem expandAll_card (cfg : MapConfig) (node : BfsNode) :
    ∀ (ds : List DirEntry) (acc : List BfsNode × Finset (ℤ × ℤ)),
      (boundsF cfg \ (expandAll cfg node acc ds).2).card +
          (expandAll cfg node acc ds).1.length =
        (boundsF cfg \ acc.2).card + acc.1.length := by
  intro ds
  induction ds with
  | nil =>
    intro acc
    simp [expandAll]
  | cons d ds ih =>
    intro acc
    have hfold : expandAll cfg node acc (d :: ds) =
        expandAll cfg node (enqueueStep cfg node acc d) ds := by
      simp [expandAll, List.foldl_cons]
    rw [hfold, ih]
    rcases enqueueStep_cases cfg node acc d with
      ⟨hok, hnm, heq⟩ | ⟨-, heq⟩
    · rw [heq]
      have hb : (node.1.1 + d.dx, node.1.2 + d.dz) ∈ boundsF cfg := by
        rw [← inBoundsB_iff_mem_boundsF]
        simp only [okCellB, Bool.and_eq_true] at hok
        exact hok.1
      have hmemd : (node.1.1 + d.dx, node.1.2 + d.dz) ∈ boundsF cfg \ acc.2 :=
        Finset.mem_sdiff.mpr ⟨hb, hnm⟩
      have hcard : (boundsF cfg \ insert (node.1.1 + d.dx, node.1.2 + d.dz)
          acc.2).card = (boundsF cfg \ acc.2).card - 1 := by
        rw [Finset.sdiff_insert, Finset.card_erase_of_mem hmemd]
      have hpos : 0 < (boundsF cfg \ acc.2).card :=
        Finset.card_pos.mpr ⟨_, hmemd⟩
      simp only [hcard, List.length_append, List.length_cons,
        List.length_nil]
      omega
    · rw [heq]

theorem bfsAux_total (cfg : MapConfig) :
    ∀ (fuel : Nat) (queue : List BfsNode) (visited : Finset (ℤ × ℤ)),
      (boundsF cfg \ visited).card + queue.length < fuel →
      bfsAux cfg fuel queue visited ≠ none := by
  intro fuel
  induction fuel with
  | zero => intro queue visited h; omega
  | succ fuel ih =>
    intro queue visited h
    match queue with
    | [] => simp [bfsAux]
    | node :: rest =>
      by_cases hg : node.1 = cfg.goal
      · simp [bfsAux, hg]
      · have hrec : bfsAux cfg (fuel + 1) (node :: rest) visited =
            bfsAux cfg fuel (expandAll cfg node (rest, visited) dirs).1
              (expandAll cfg node (rest, visited) dirs).2 := by
          simp [bfsAux, hg]
        rw [hrec]
        apply ih
        have hm := expandAll_card cfg node dirs (rest, visited)
        simp only [List.length_cons] at h
        simp only [Prod.fst, Prod.snd] at hm
        omega

theorem boundsF_card (cfg : MapConfig) :
    (boundsF cfg).card = cfg.width.toNat * cfg.height.toNat := by
  simp [boundsF, Finset.card_product, Int.card_Ico]

theorem findPath_eq_bfsAux (cfg : MapConfig) :
    bfsAux cfg (bfsFuel cfg) [(cfg.start, [])] {cfg.start} =
      some (findPath cfg) := by
  have htot := bfsAux_total cfg (bfsFuel cfg) [(cfg.start, [])] {cfg.start} ?_
  · cases h : bfsAux cfg (bfsFuel cfg) [(cfg.start, [])] {cfg.start} with
    | none => exact absurd h htot
    | some r => simp [findPath, h]
  · have hle : (boundsF cfg \ {cfg.start}).card ≤ (boundsF cfg).card :=
      Finset.card_le_card (Finset.sdiff_subset)
    rw [boundsF_card] at hle
    simp only [List.length_cons, List.length_nil, bfsFuel]
    omega

/-! Coverage: under the invariant, any cell reachable by a valid path no
longer than the head entry of the queue has already been visited. -/

theorem bfsInv_coverage (cfg : MapConfig) {e : BfsNode} {rest : List BfsNode}
    {visited : Finset (ℤ × ℤ)} (h : BfsInv cfg (e :: rest) visited) :
    ∀ (n : ℕ) (π : List String) (z : ℤ × ℤ), π.length = n →
      pathGoesB cfg cfg.start π z = true → n ≤ e.2.length → z ∈ visited := by
  intro n
  induction n using Nat.strong_induction_on with
  | _ n ih =>
    intro π z hlen hp hle
    rcases List.eq_nil_or_concat π with rfl | ⟨π₀, m, hπ⟩
    · rw [pathGoesB_nil_iff] at hp
      exact hp ▸ h.start_mem
    · rw [List.concat_eq_append] at hπ
      subst hπ
      rw [pathGoesB_snoc_iff] at hp
      obtain ⟨y, hy, hstep, hokz⟩ := hp
      simp only [List.length_append, List.length_cons, List.length_nil]
        at hlen
      have hyv : y ∈ visited :=
        ih π₀.length (by omega) π₀ y rfl hy (by omega)
      by_cases hyq : ∀ nq ∈ e :: rest, nq.1 ≠ y
      · exact h.visited_closed y hyv hyq z (stepOk_of_stepPos cfg hstep hokz)
      · push_neg at hyq
        obtain ⟨nq, hnq, hnqy⟩ := hyq
        have hmin := h.nodes_min nq hnq π₀ (by rw [hnqy]; exact hy)
        have hsort : e.2.length ≤ nq.2.length := by
          rcases List.mem_cons.mp hnq with rfl | hnq'
          · exact le_refl _
          · have hs := h.sortedQ
            simp only [List.map_cons] at hs
            exact List.rel_of_sorted_cons hs _
              (List.mem_map_of_mem (fun n => n.2.length) hnq')
        exact absurd hle (by omega)

theorem bfsInv_empty_reach (cfg : MapConfig) {visited : Finset (ℤ × ℤ)}
    (h : BfsInv cfg [] visited) :
    ∀ (n : ℕ) (π : List String) (z : ℤ × ℤ), π.length = n →
      pathGoesB cfg cfg.start π z = true → z ∈ visited := by
  intro n
  induction n using Nat.strong_induction_on with
  | _ n ih =>
    intro π z hlen hp
    rcases List.eq_nil_or_concat π with rfl | ⟨π₀, m, hπ⟩
    · rw [pathGoesB_nil_iff] at hp
      exact hp ▸ h.start_mem
    · rw [List.concat_eq_append] at hπ
      subst hπ
      rw [pathGoesB_snoc_iff] at hp
      obtain ⟨y, hy, hstep, hokz⟩ := hp
      simp only [List.length_append, List.length_cons, List.length_nil]
        at hlen
      have hyv : y ∈ visited := ih π₀.length (by omega) π₀ y rfl hy
      exact h.visited_closed y hyv (by simp) z
        (stepOk_of_stepPos cfg hstep hokz)

/-! Preservation of the invariant by one iteration of the BFS loop. -/

theorem bfsInv_preserved (cfg : MapConfig) {node : BfsNode}
    {rest : List BfsNode} {visited : Finset (ℤ × ℤ)}
    (h : BfsInv cfg (node :: rest) visited) (hg : node.1 ≠ cfg.goal) :
    BfsInv cfg (expandAll cfg node (rest, visited) dirs).1
      (expandAll cfg node (rest, visited) dirs).2 := by
  obtain ⟨ns, h1, h2, h3, h4, h5, h6⟩ :=
    expandAll_spec cfg node dirs (rest, visited)
  simp only [Prod.fst, Prod.snd] at h1 h2 h3 h4 h5 h6
  have hheadmin : ∀ n ∈ rest, node.2.length ≤ n.2.length := by
    intro n hn
    have hs := h.sortedQ
    simp only [List.map_cons] at hs
    exact List.rel_of_sorted_cons hs _
      (List.mem_map_of_mem (fun n => n.2.length) hn)
  have hnewlen : ∀ n ∈ ns, n.2.length = node.2.length + 1 := by
    intro n hn
    obtain ⟨d, -, -, hpath, -, -⟩ := h3 n hn
    simp [hpath]
  have hnewvalid : ∀ n ∈ ns, pathGoesB cfg cfg.start n.2 n.1 = true := by
    intro n hn
    obtain ⟨d, hd, hpos, hpath, hok, -⟩ := h3 n hn
    rw [hpath, pathGoesB_snoc_iff]
    refine ⟨node.1, h.nodes_valid node (List.mem_cons_self _ _), ?_, ?_⟩
    · rw [stepPos_of_dir hd, hpos]
    · exact hok
  have hnewmin : ∀ n ∈ ns, ∀ π, pathGoesB cfg cfg.start π n.1 = true →
      n.2.length ≤ π.length := by
    intro n hn π hπ
    obtain ⟨d, -, -, -, -, hnm⟩ := h3 n hn
    by_contra hlt
    push_neg at hlt
    rw [hnewlen n hn] at hlt
    exact hnm (bfsInv_coverage cfg h π.length π n.1 rfl hπ (by omega))
  constructor
  · exact h2 h.start_mem
  · intro n hn
    rw [h1] at hn
    rcases List.mem_append.mp hn with hn' | hn'
    · exact h2 (h.nodes_visited n (List.mem_cons_of_mem _ hn'))
    · exact h4 n hn'
  · intro n hn
    rw [h1] at hn
    rcases List.mem_append.mp hn with hn' | hn'
    · exact h.nodes_valid n (List.mem_cons_of_mem _ hn')
    · exact hnewvalid n hn'
  · intro n hn
    rw [h1] at hn
    rcases List.mem_append.mp hn with hn' | hn'
    · exact h.nodes_min n (List.mem_cons_of_mem _ hn')
    · exact hnewmin n hn'
  · rw [h1, List.map_append]
    rw [List.Sorted, List.pairwise_append]
    refine ⟨?_, ?_, ?_⟩
    · have hs := h.sortedQ
      simp only [List.map_cons] at hs
      exact hs.of_cons
    · have : ∀ a ∈ ns.map (fun n => n.2.length), a = node.2.length + 1 := by
        intro a ha
        obtain ⟨n, hn, rfl⟩ := List.mem_map.mp ha
        exact hnewlen n hn
      rw [List.pairwise_iff_forall_sublist]
      intro a b hab
      have hsub := hab.subset
      have ha := this a (hsub (List.mem_cons_self a [b]))
      have hb := this b (hsub (List.mem_cons_of_mem a (List.mem_cons_self b [])))
      omega
    · intro a ha b hb
      obtain ⟨n, hn, rfl⟩ := List.mem_map.mp ha
      obtain ⟨n', hn', rfl⟩ := List.mem_map.mp hb
      have := h.spread n (List.mem_cons_of_mem _ hn) node
        (List.mem_cons_self _ _)
      rw [hnewlen n' hn']
      omega
  · intro n hn n' hn'
    rw [h1] at hn hn'
    rcases List.mem_append.mp hn with hm | hm <;>
      rcases List.mem_append.mp hn' with hm' | hm'
    · exact h.spread n (List.mem_cons_of_mem _ hm) n'
        (List.mem_cons_of_mem _ hm')
    · have := h.spread n (List.mem_cons_of_mem _ hm) node
        (List.mem_cons_self _ _)
      rw [hnewlen n' hm']
      omega
    · have := hheadmin n' hm'
      rw [hnewlen n hm]
      omega
    · rw [hnewlen n hm, hnewlen n' hm']
      omega
  · intro v hv hnotq q hq
    rcases h5 v hv with hv' | ⟨n, hn, hnv⟩
    · by_cases hvnode : v = node.1
      · obtain ⟨d, hd, hqd, hok⟩ := hq
        subst hvnode
        rw [hqd]
        exact h6 d hd (by rw [← hqd]; exact hok)
      · have hclosed : ∀ nq ∈ node :: rest, nq.1 ≠ v := by
          intro nq hnq
          rcases List.mem_cons.mp hnq with rfl | hnq'
          · exact fun hc => hvnode hc.symm
          · intro hc
            exact hnotq nq (by rw [h1]; exact List.mem_append_left _ hnq') hc
        exact h2 (h.visited_closed v hv' hclosed q hq)
    · exact absurd hnv
        (hnotq n (by rw [h1]; exact List.mem_append_right _ hn))
  · intro hgv
    rcases h5 cfg.goal hgv with hv' | ⟨n, hn, hnv⟩
    · obtain ⟨n, hn, hng⟩ := h.goal_pending hv'
      rcases List.mem_cons.mp hn with rfl | hn'
      · exact absurd hng hg
      · exact ⟨n, by rw [h1]; exact List.mem_append_left _ hn', hng⟩
    · exact ⟨n, by rw [h1]; exact List.mem_append_right _ hn, hnv⟩

theorem bfsInv_initial (cfg : MapConfig) :
    BfsInv cfg [(cfg.start, [])] {cfg.start} := by
  constructor
  · exact Finset.mem_singleton_self _
  · intro n hn
    rcases List.mem_singleton.mp hn with rfl
    exact Finset.mem_singleton_self _
  · intro n hn
    rcases List.mem_singleton.mp hn with rfl
    rw [pathGoesB_nil_iff]
  · intro n hn π hπ
    rcases List.mem_singleton.mp hn with rfl
    simp
  · simp [List.Sorted]
  · intro n hn n' hn'
    rcases List.mem_singleton.mp hn with rfl
    simp
  · intro v hv hnotq q hq
    rcases Finset.mem_singleton.mp hv with rfl
    exact absurd rfl (hnotq _ (List.mem_singleton_self _))
  · intro hgv
    rcases Finset.mem_singleton.mp hgv with hgv'
    exact ⟨(cfg.start, []), List.mem_singleton_self _, hgv'.symm⟩

/-! Soundness and completeness of the BFS loop relative to valid paths. -/

theorem bfsAux_spec (cfg : MapConfig) :
    ∀ (fuel : Nat) (queue : List BfsNode) (visited : Finset (ℤ × ℤ)),
      BfsInv cfg queue visited →
      ∀ r, bfsAux cfg fuel queue visited = some r →
        (∀ p, r = some p →
          pathGoesB cfg cfg.start p cfg.goal = true ∧
          ∀ π, pathGoesB cfg cfg.start π cfg.goal = true →
            p.length ≤ π.length) ∧
        (r = none → ∀ π, pathGoesB cfg cfg.start π cfg.goal = false) := by
  intro fuel
  induction fuel with
  | zero =>
    intro queue visited hinv r hr
    simp [bfsAux] at hr
  | succ fuel ih =>
    intro queue visited hinv r hr
    match queue with
    | [] =>
      simp only [bfsAux, Option.some.injEq] at hr
      subst hr
      refine ⟨fun p hp => by simp at hp, fun _ π => ?_⟩
      by_contra hπ
      rw [Bool.not_eq_false] at hπ
      have hgv := bfsInv_empty_reach cfg hinv π.length π cfg.goal rfl hπ
      obtain ⟨n, hn, -⟩ := hinv.goal_pending hgv
      exact absurd hn (List.not_mem_nil n)
    | node :: rest =>
      by_cases hg : node.1 = cfg.goal
      · simp only [bfsAux, hg, if_pos, Option.some.injEq] at hr
        subst hr
        refine ⟨fun p hp => ?_, fun hnone => by simp at hnone⟩
        obtain rfl : node.2 = p := by simpa using hp
        constructor
        · rw [← hg]
          exact hinv.nodes_valid node (List.mem_cons_self _ _)
        · intro π hπ
          exact hinv.nodes_min node (List.mem_cons_self _ _) π
            (by rw [hg]; exact hπ)
      · have hrec : bfsAux cfg (fuel + 1) (node :: rest) visited =
            bfsAux cfg fuel (expandAll cfg node (rest, visited) dirs).1
              (expandAll cfg node (rest, visited) dirs).2 := by
          simp [bfsAux, hg]
        rw [hrec] at hr
        exact ih _ _ (bfsInv_preserved cfg hinv hg) r hr

/-! Master correctness facts about `findPath`. -/

theorem findPath_some_spec (cfg : MapConfig) :
    ∀ p, findPath cfg = some p →
      pathGoesB cfg cfg.start p cfg.goal = true ∧
      ∀ π, pathGoesB cfg cfg.start π cfg.goal = true →
        p.length ≤ π.length := by
  have hspec := bfsAux_spec cfg (bfsFuel cfg) [(cfg.start, [])] {cfg.start}
    (bfsInv_initial cfg) (findPath cfg) (findPath_eq_bfsAux cfg)
  intro p hp
  exact hspec.1 p hp

theorem findPath_none_spec (cfg : MapConfig) :
    findPath cfg = none →
      ∀ π, pathGoesB cfg cfg.start π cfg.goal = false := by
  have hspec := bfsAux_spec cfg (bfsFuel cfg) [(cfg.start, [])] {cfg.start}
    (bfsInv_initial cfg) (findPath cfg) (findPath_eq_bfsAux cfg)
  exact hspec.2

theorem findPath_complete (cfg : MapConfig) {π : List String}
    (h : pathGoesB cfg cfg.start π cfg.goal = true) :
    ∃ p, findPath cfg = some p := by
  cases hp : findPath cfg with
  | none =>
    have := findPath_none_spec cfg hp π
    rw [h] at this
    exact absurd this (by simp)
  | some p => exact ⟨p, rfl⟩

theorem findPath_start_eq_goal (cfg : MapConfig) (h : cfg.start = cfg.goal) :
    findPath cfg = some [] := by
  have : bfsAux cfg (bfsFuel cfg) [(cfg.start, [])] {cfg.start} =
      some (some []) := by
    rw [bfsFuel]
    show bfsAux cfg (cfg.width.toNat * cfg.height.toNat + 1 + 1)
      [(cfg.start, [])] {cfg.start} = some (some [])
    simp [bfsAux, h]
  rw [findPath_eq_bfsAux cfg] at this
  simpa using this

/-! Helper facts connecting valid paths, routes and traps. -/

theorem okCellB_not_trap (cfg : MapConfig) {q : ℤ × ℤ}
    (h : okCellB cfg q = true) : isTrapB cfg q = false := by
  simp only [okCellB, Bool.and_eq_true] at h
  obtain ⟨hin, hpass⟩ := h
  rw [Bool.eq_false_iff]
  intro htrap
  rw [isTrapB, List.any_eq_true] at htrap
  obtain ⟨t, ht, hteq⟩ := htrap
  have hteq' : t = q := by simpa using hteq
  subst hteq'
  have hall : (cfg.traps.any fun t' => inBoundsB cfg t' && decide (t' = t))
      = false := by
    simpa [passableB] using hpass
  rw [List.any_eq_false] at hall
  have hfalse := hall t ht
  simp [hin] at hfalse

theorem pathGoesB_route_trapfree (cfg : MapConfig) :
    ∀ (π : List String) (s g : ℤ × ℤ),
      pathGoesB cfg s π g = true →
      routeGoesB cfg s π g = true ∧
        ∀ q ∈ movePositions s π, isTrapB cfg q = false := by
  intro π
  induction π with
  | nil =>
    intro s g h
    rw [pathGoesB_nil_iff] at h
    exact ⟨by rw [routeGoesB_nil_iff]; exact h, by simp [movePositions]⟩
  | cons m ms ih =>
    intro s g h
    rw [pathGoesB_cons_iff] at h
    obtain ⟨q, hq, hok, hrest⟩ := h
    obtain ⟨hroute, htraps⟩ := ih q g hrest
    have hin : inBoundsB cfg q = true := by
      simp only [okCellB, Bool.and_eq_true] at hok
      exact hok.1
    constructor
    · rw [routeGoesB_cons_iff]
      exact ⟨q, hq, hin, hroute⟩
    · intro x hx
      simp only [movePositions, hq] at hx
      rcases List.mem_cons.mp hx with rfl | hx'
      · exact okCellB_not_trap cfg hok
      · exact htraps x hx'

theorem routeGoesB_endpoint_mem (cfg : MapConfig) :
    ∀ (π : List String) (s g : ℤ × ℤ),
      routeGoesB cfg s π g = true → s = g ∨ g ∈ movePositions s π := by
  intro π
  induction π with
  | nil =>
    intro s g h
    rw [routeGoesB_nil_iff] at h
    exact Or.inl h
  | cons m ms ih =>
    intro s g h
    rw [routeGoesB_cons_iff] at h
    obtain ⟨q, hq, -, hrest⟩ := h
    simp only [movePositions, hq]
    rcases ih q g hrest with rfl | hmem
    · exact Or.inr (List.mem_cons_self _ _)
    · exact Or.inr (List.mem_cons_of_mem _ hmem)

theorem pathGoesB_endpoint_ok (cfg : MapConfig) :
    ∀ (π : List String) (s g : ℤ × ℤ),
      pathGoesB cfg s π g = true → s = g ∨ okCellB cfg g = true := by
  intro π
  induction π with
  | nil =>
    intro s g h
    rw [pathGoesB_nil_iff] at h
    exact Or.inl h
  | cons m ms ih =>
    intro s g h
    rw [pathGoesB_cons_iff] at h
    obtain ⟨q, -, hok, hrest⟩ := h
    rcases ih q g hrest with rfl | hokg
    · exact Or.inr hok
    · exact Or.inr hokg

/-! Case analysis of a single executor step. -/

theorem moveRobot_cases (ctx : GameContext) (st : RobotState) (m : String) :
    (directionConfig m = none ∧
      moveRobot ctx st m = (st, MovementOutcome.unknownDirection)) ∨
    ∃ dx dz, directionConfig m = some (dx, dz) ∧
      ((isOutOfBounds ctx (st.pos.1 + dx, st.pos.2 + dz) = true ∧
        moveRobot ctx st m = (st, MovementOutcome.blockedByBounds)) ∨
      (isOutOfBounds ctx (st.pos.1 + dx, st.pos.2 + dz) = false ∧
        isObstacleAt ctx (st.pos.1 + dx, st.pos.2 + dz) = true ∧
        moveRobot ctx st m = (st, MovementOutcome.blockedByObstacle)) ∨
      (isOutOfBounds ctx (st.pos.1 + dx, st.pos.2 + dz) = false ∧
        isObstacleAt ctx (st.pos.1 + dx, st.pos.2 + dz) = false ∧
        isTrapAt ctx (st.pos.1 + dx, st.pos.2 + dz) = true ∧
        moveRobot ctx st m =
          (⟨(st.pos.1 + dx, st.pos.2 + dz), true⟩,
            MovementOutcome.triggeredTrap)) ∨
      (isOutOfBounds ctx (st.pos.1 + dx, st.pos.2 + dz) = false ∧
        isObstacleAt ctx (st.pos.1 + dx, st.pos.2 + dz) = false ∧
        isTrapAt ctx (st.pos.1 + dx, st.pos.2 + dz) = false ∧
        (st.pos.1 + dx = ctx.positionEnd.1 ∧
          st.pos.2 + dz = ctx.positionEnd.2) ∧
        moveRobot ctx st m =
          (⟨(st.pos.1 + dx, st.pos.2 + dz), true⟩,
            MovementOutcome.reachedGoal)) ∨
      (isOutOfBounds ctx (st.pos.1 + dx, st.pos.2 + dz) = false ∧
        isObstacleAt ctx (st.pos.1 + dx, st.pos.2 + dz) = false ∧
        isTrapAt ctx (st.pos.1 + dx, st.pos.2 + dz) = false ∧
        ¬(st.pos.1 + dx = ctx.positionEnd.1 ∧
          st.pos.2 + dz = ctx.positionEnd.2) ∧
        moveRobot ctx st m =
          (⟨(st.pos.1 + dx, st.pos.2 + dz), st.isGameFinished⟩,
            MovementOutcome.moved))) := by
  cases hd : directionConfig m with
  | none => exact Or.inl ⟨rfl, by simp [moveRobot, hd]⟩
  | some o =>
    obtain ⟨dx, dz⟩ := o
    refine Or.inr ⟨dx, dz, rfl, ?_⟩
    by_cases hb : isOutOfBounds ctx (st.pos.1 + dx, st.pos.2 + dz) = true
    · exact Or.inl ⟨hb, by simp [moveRobot, hd, hb]⟩
    · rw [Bool.not_eq_true] at hb
      by_cases ho : isObstacleAt ctx (st.pos.1 + dx, st.pos.2 + dz) = true
      · exact Or.inr (Or.inl ⟨hb, ho, by simp [moveRobot, hd, hb, ho]⟩)
      · rw [Bool.not_eq_true] at ho
        by_cases ht : isTrapAt ctx (st.pos.1 + dx, st.pos.2 + dz) = true
        · exact Or.inr (Or.inr (Or.inl
            ⟨hb, ho, ht, by simp [moveRobot, hd, hb, ho, ht]⟩))
        · rw [Bool.not_eq_true] at ht
          by_cases hgoal : st.pos.1 + dx = ctx.positionEnd.1 ∧
              st.pos.2 + dz = ctx.positionEnd.2
          · refine Or.inr (Or.inr (Or.inr (Or.inl ⟨hb, ho, ht, hgoal, ?_⟩)))
            simp only [moveRobot, hd]
            rw [if_neg (by simp [hb]), if_neg (by simp [ho]),
              if_neg (by simp [ht]), if_pos hgoal]
          · refine Or.inr (Or.inr (Or.inr (Or.inr ⟨hb, ho, ht, hgoal, ?_⟩)))
            simp only [moveRobot, hd]
            rw [if_neg (by simp [hb]), if_neg (by simp [ho]),
              if_neg (by simp [ht]), if_neg hgoal]

theorem moveRobot_flag_eq (ctx : GameContext) (st : RobotState) (m : String)
    (h : st.isGameFinished = false) :
    (moveRobot ctx st m).1.isGameFinished =
      isTerminalB (moveRobot ctx st m).2 := by
  rcases moveRobot_cases ctx st m with ⟨-, heq⟩ |
    ⟨dx, dz, -, ⟨-, heq⟩ | ⟨-, -, heq⟩ | ⟨-, -, -, heq⟩ |
      ⟨-, -, -, -, heq⟩ | ⟨-, -, -, -, heq⟩⟩ <;>
    rw [heq] <;> simp [isTerminalB, h]

theorem moveRobot_trap_pos (ctx : GameContext) (st : RobotState) (m : String)
    (h : (moveRobot ctx st m).2 = MovementOutcome.triggeredTrap) :
    (moveRobot ctx st m).1.pos ∈ ctx.trapPositions := by
  rcases moveRobot_cases ctx st m with ⟨-, heq⟩ |
    ⟨dx, dz, -, ⟨-, heq⟩ | ⟨-, -, heq⟩ | ⟨-, -, htrap, heq⟩ |
      ⟨-, -, -, -, heq⟩ | ⟨-, -, -, -, heq⟩⟩ <;>
    rw [heq] at h ⊢ <;> simp_all
  rw [isTrapAt, List.any_eq_true] at htrap
  obtain ⟨t, ht, hteq⟩ := htrap
  simp only [Bool.and_eq_true, beq_iff_eq] at hteq
  have hts : t = (st.pos.1 + dx, st.pos.2 + dz) := Prod.ext hteq.1 hteq.2
  exact hts ▸ ht

theorem moveRobot_goal_pos (ctx : GameContext) (st : RobotState) (m : String)
    (h : (moveRobot ctx st m).2 = MovementOutcome.reachedGoal) :
    (moveRobot ctx st m).1.pos = ctx.positionEnd := by
  rcases moveRobot_cases ctx st m with ⟨-, heq⟩ |
    ⟨dx, dz, -, ⟨-, heq⟩ | ⟨-, -, heq⟩ | ⟨-, -, -, heq⟩ |
      ⟨-, -, -, hgoal, heq⟩ | ⟨-, -, -, -, heq⟩⟩ <;>
    rw [heq] at h ⊢ <;> simp_all

/-! The sequential run. -/

theorem runMoveSequence_finished (ctx : GameContext) (st : RobotState)
    (ms : List String) (h : st.isGameFinished = true) :
    runMoveSequence ctx st ms = (st, []) := by
  cases ms with
  | nil => rfl
  | cons m ms => simp [runMoveSequence, h]

theorem runMoveSequence_cons_active (ctx : GameContext) (st : RobotState)
    (m : String) (ms : List String) (h : st.isGameFinished = false) :
    runMoveSequence ctx st (m :: ms) =
      ((runMoveSequence ctx (moveRobot ctx st m).1 ms).1,
        (moveRobot ctx st m).2 ::
          (runMoveSequence ctx (moveRobot ctx st m).1 ms).2) := by
  simp [runMoveSequence, h]

theorem runMoveSequence_spec (ctx : GameContext) :
    ∀ (ms : List String) (st : RobotState), st.isGameFinished = false →
      (runMoveSequence ctx st ms).2.length ≤ ms.length ∧
      (∀ o ∈ (runMoveSequence ctx st ms).2.dropLast, isTerminalB o = false) ∧
      ((runMoveSequence ctx st ms).2.length < ms.length →
        ∃ o, (runMoveSequence ctx st ms).2.getLast? = some o ∧
          isTerminalB o = true) ∧
      ((runMoveSequence ctx st ms).2.getLast? =
          some MovementOutcome.triggeredTrap →
        (runMoveSequence ctx st ms).1.pos ∈ ctx.trapPositions) ∧
      ((runMoveSequence ctx st ms).2.getLast? =
          some MovementOutcome.reachedGoal →
        (runMoveSequence ctx st ms).1.pos = ctx.positionEnd) := by
  intro ms
  induction ms with
  | nil =>
    intro st h
    refine ⟨by simp [runMoveSequence], by simp [runMoveSequence],
      by simp [runMoveSequence], by simp [runMoveSequence],
      by simp [runMoveSequence]⟩
  | cons m ms ih =>
    intro st h
    rw [runMoveSequence_cons_active ctx st m ms h]
    by_cases hterm : isTerminalB (moveRobot ctx st m).2 = true
    · have hflag : (moveRobot ctx st m).1.isGameFinished = true := by
        rw [moveRobot_flag_eq ctx st m h, hterm]
      rw [runMoveSequence_finished ctx _ ms hflag]
      refine ⟨by simp, by simp, fun _ => ⟨(moveRobot ctx st m).2, by simp,
        hterm⟩, ?_, ?_⟩
      · intro hlast
        simp only [List.getLast?_singleton, Option.some.injEq] at hlast
        exact moveRobot_trap_pos ctx st m hlast
      · intro hlast
        simp only [List.getLast?_singleton, Option.some.injEq] at hlast
        exact moveRobot_goal_pos ctx st m hlast
    · rw [Bool.not_eq_true] at hterm
      have hflag : (moveRobot ctx st m).1.isGameFinished = false := by
        rw [moveRobot_flag_eq ctx st m h, hterm]
      obtain ⟨ih1, ih2, ih3, ih4, ih5⟩ := ih (moveRobot ctx st m).1 hflag
      refine ⟨by simpa using Nat.succ_le_succ ih1, ?_, ?_, ?_, ?_⟩
      · intro o ho
        cases hr2 : (runMoveSequence ctx (moveRobot ctx st m).1 ms).2 with
        | nil => rw [hr2] at ho; simp at ho
        | cons x xs =>
          rw [hr2, List.dropLast_cons₂] at ho
          rcases List.mem_cons.mp ho with rfl | ho'
          · exact hterm
          · rw [hr2] at ih2
            exact ih2 o ho'
      · intro hlt
        simp only [List.length_cons, Nat.succ_lt_succ_iff] at hlt
        obtain ⟨o, hlast, hterm'⟩ := ih3 hlt
        refine ⟨o, ?_, hterm'⟩
        cases hr2 : (runMoveSequence ctx (moveRobot ctx st m).1 ms).2 with
        | nil => rw [hr2] at hlast; simp at hlast
        | cons x xs => rw [hr2] at hlast; simpa using hlast
      · intro hlast
        replace hlast : ((moveRobot ctx st m).2 ::
            (runMoveSequence ctx (moveRobot ctx st m).1 ms).2).getLast? =
            some MovementOutcome.triggeredTrap := hlast
        cases hr2 : (runMoveSequence ctx (moveRobot ctx st m).1 ms).2 with
        | nil =>
          rw [hr2] at hlast
          simp only [List.getLast?_singleton, Option.some.injEq] at hlast
          rw [hlast] at hterm
          simp [isTerminalB] at hterm
        | cons x xs =>
          rw [hr2, List.getLast?_cons_cons, ← hr2] at hlast
          exact ih4 hlast
      · intro hlast
        replace hlast : ((moveRobot ctx st m).2 ::
            (runMoveSequence ctx (moveRobot ctx st m).1 ms).2).getLast? =
            some MovementOutcome.reachedGoal := hlast
        cases hr2 : (runMoveSequence ctx (moveRobot ctx st m).1 ms).2 with
        | nil =>
          rw [hr2] at hlast
          simp only [List.getLast?_singleton, Option.some.injEq] at hlast
          rw [hlast] at hterm
          simp [isTerminalB] at hterm
        | cons x xs =>
          rw [hr2, List.getLast?_cons_cons, ← hr2] at hlast
          exact ih5 hlast

/-! Facts about the arrow-run extraction. -/

theorem arrowRuns_cons (c : Char) (cs : List Char) :
    arrowRuns (c :: cs) =
      if isArrowChar c then
        if headIsArrow cs then consRun c (arrowRuns cs)
        else [c] :: arrowRuns cs
      else arrowRuns cs := rfl

theorem arrowRuns_sound :
    ∀ cs : List Char, ∀ r ∈ arrowRuns cs,
      r ≠ [] ∧ ∀ c ∈ r, isArrowChar c = true := by
  intro cs
  induction cs with
  | nil => intro r hr; simp [arrowRuns] at hr
  | cons c cs ih =>
    intro r hr
    rw [arrowRuns_cons] at hr
    by_cases hc : isArrowChar c = true
    · rw [if_pos hc] at hr
      by_cases hh : headIsArrow cs = true
      · rw [if_pos hh] at hr
        cases harr : arrowRuns cs with
        | nil =>
          rw [harr] at hr
          simp only [consRun] at hr
          rcases List.mem_singleton.mp hr with rfl
          exact ⟨by simp, by simpa using hc⟩
        | cons r0 rs0 =>
          rw [harr] at hr
          simp only [consRun] at hr
          rcases List.mem_cons.mp hr with rfl | hr'
          · have h0 := ih r0 (by rw [harr]; exact List.mem_cons_self _ _)
            refine ⟨by simp, ?_⟩
            intro x hx
            rcases List.mem_cons.mp hx with rfl | hx'
            · exact hc
            · exact h0.2 x hx'
          · exact ih r (by rw [harr]; exact List.mem_cons_of_mem _ hr')
      · rw [if_neg hh] at hr
        rcases List.mem_cons.mp hr with rfl | hr'
        · exact ⟨by simp, by simp [hc]⟩
        · exact ih r hr'
    · rw [if_neg hc] at hr
      exact ih r hr

theorem arrowRuns_eq_nil (cs : List Char)
    (h : ∀ c ∈ cs, isArrowChar c = false) : arrowRuns cs = [] := by
  induction cs with
  | nil => rfl
  | cons c cs ih =>
    have hc := h c (List.mem_cons_self _ _)
    rw [arrowRuns_cons, if_neg (by simp [hc])]
    exact ih fun x hx => h x (List.mem_cons_of_mem _ hx)

theorem extractRouteMoves_some (s : String) (ms : List String)
    (h : extractRouteMoves s = some ms) :
    ms ≠ [] ∧ ∀ m ∈ ms, m.toList ≠ [] ∧
      ∀ c ∈ m.toList, isArrowChar c = true := by
  rw [extractRouteMoves] at h
  by_cases he : ((arrowRuns s.toList).map fun r => String.mk r).isEmpty = true
  · rw [if_pos he] at h
    exact absurd h (by simp)
  · rw [if_neg he] at h
    obtain rfl : (arrowRuns s.toList).map (fun r => String.mk r) = ms :=
      Option.some.inj h
    refine ⟨by simpa [List.isEmpty_iff] using he, ?_⟩
    intro m hm
    obtain ⟨r, hr, rfl⟩ := List.mem_map.mp hm
    obtain ⟨hne, hall⟩ := arrowRuns_sound s.toList r hr
    exact ⟨by simpa using hne, by simpa using hall⟩

theorem extractRouteMoves_no_arrow (s : String)
    (h : ∀ c ∈ s.toList, isArrowChar c = false) :
    extractRouteMoves s = none := by
  rw [extractRouteMoves, arrowRuns_eq_nil s.toList h]
  rfl

/-- An unusable goal cell (out of bounds or trap-blocked) that differs from
the start is reported by `findPath` with the same `none` as the ordinary
no-route case. -/
theorem findPath_bad_goal_none (cfg : MapConfig)
    (hok : okCellB cfg cfg.goal = false) (hne : cfg.start ≠ cfg.goal) :
    findPath cfg = none := by
  cases hfp : findPath cfg with
  | none => rfl
  | some p =>
    have hvalid := (findPath_some_spec cfg p hfp).1
    rcases pathGoesB_endpoint_ok cfg p cfg.start cfg.goal hvalid with heq | hokg
    · exact absurd heq hne
    · rw [hokg] at hok
      exact absurd hok (by simp)

/-! Claim theorems. -/

/-- C1: for every grid and start/goal pair, `findPath` returns a path exactly
when the goal is reachable from the start through passable cells under
four-connectivity, and every returned path is itself such a route whose
length is minimal among all such routes (it equals the BFS graph distance; no
strictly shorter route exists).  When the goal is unreachable the result is
`none`, the embedded `null` NotFound value, never a partial path. -/
theorem findPath_returns_shortest_path_iff_reachable (cfg : MapConfig) :
    ((∃ p, findPath cfg = some p) ↔
      ∃ π, pathGoesB cfg cfg.start π cfg.goal = true) ∧
    (∀ p, findPath cfg = some p →
      pathGoesB cfg cfg.start p cfg.goal = true ∧
      ∀ π, pathGoesB cfg cfg.start π cfg.goal = true →
        p.length ≤ π.length) := by
  refine ⟨⟨?_, ?_⟩, findPath_some_spec cfg⟩
  · rintro ⟨p, hp⟩
    exact ⟨p, (findPath_some_spec cfg p hp).1⟩
  · rintro ⟨π, hπ⟩
    exact findPath_complete cfg hπ

/-- Witness for C1 on the open 2 by 2 grid: `findPath` returns the two-move
path right-then-down, which the theorem certifies as a valid shortest
route. -/
theorem findPath_returns_shortest_path_iff_reachable_witness :
    findPath ⟨2, 2, (0, 0), (1, 1), []⟩ = some ["→", "↓"] ∧
    pathGoesB ⟨2, 2, (0, 0), (1, 1), []⟩ (0, 0) ["→", "↓"] (1, 1) = true ∧
    (∃ p, findPath ⟨2, 2, (0, 0), (1, 1), []⟩ = some p) :=
  ⟨by decide,
    ((findPath_returns_shortest_path_iff_reachable
      ⟨2, 2, (0, 0), (1, 1), []⟩).2 ["→", "↓"] (by decide)).1,
    (findPath_returns_shortest_path_iff_reachable
      ⟨2, 2, (0, 0), (1, 1), []⟩).1.mpr ⟨["→", "↓"], by decide⟩⟩

/-- C2: every path returned by `findPath` steps onto no trap coordinate, and
on a grid where every four-connected route from start to goal steps onto a
trap cell, `findPath` returns the `none` NotFound value — the planner treats
traps as impassable even though the movement executor would permit stepping
onto a trap. -/
theorem findPath_avoids_traps (cfg : MapConfig) :
    (∀ p, findPath cfg = some p →
      ∀ q ∈ movePositions cfg.start p, isTrapB cfg q = false) ∧
    ((∀ π, routeGoesB cfg cfg.start π cfg.goal = true →
        ∃ q ∈ movePositions cfg.start π, isTrapB cfg q = true) →
      findPath cfg = none) := by
  constructor
  · intro p hp q hq
    exact (pathGoesB_route_trapfree cfg p cfg.start cfg.goal
      (findPath_some_spec cfg p hp).1).2 q hq
  · intro hall
    cases hfp : findPath cfg with
    | none => rfl
    | some p =>
      have hvalid := (findPath_some_spec cfg p hfp).1
      obtain ⟨hroute, htrapfree⟩ :=
        pathGoesB_route_trapfree cfg p cfg.start cfg.goal hvalid
      obtain ⟨q, hq, htrap⟩ := hall p hroute
      have hfree := htrapfree q hq
      rw [htrap] at hfree
      exact absurd hfree (by simp)

/-- Witness for C2 on the 2 by 1 grid whose goal cell is itself a trap:
every route to the goal ends on the trap, and `findPath` answers `none`. -/
theorem findPath_avoids_traps_witness :
    (∀ π, routeGoesB ⟨2, 1, (0, 0), (1, 0), [(1, 0)]⟩ (0, 0) π (1, 0) = true →
      ∃ q ∈ movePositions (0, 0) π,
        isTrapB ⟨2, 1, (0, 0), (1, 0), [(1, 0)]⟩ q = true) ∧
    findPath ⟨2, 1, (0, 0), (1, 0), [(1, 0)]⟩ = none := by
  have hyp : ∀ π, routeGoesB ⟨2, 1, (0, 0), (1, 0), [(1, 0)]⟩ (0, 0) π (1, 0)
      = true → ∃ q ∈ movePositions (0, 0) π,
        isTrapB ⟨2, 1, (0, 0), (1, 0), [(1, 0)]⟩ q = true := by
    intro π hπ
    rcases routeGoesB_endpoint_mem ⟨2, 1, (0, 0), (1, 0), [(1, 0)]⟩ π
      (0, 0) (1, 0) hπ with heq | hmem
    · exact absurd heq (by decide)
    · exact ⟨(1, 0), hmem, by decide⟩
  exact ⟨hyp, (findPath_avoids_traps ⟨2, 1, (0, 0), (1, 0), [(1, 0)]⟩).2 hyp⟩

/-- C8: the BFS loop of `findPath` terminates on every grid: because the
visited set is checked and extended before each enqueue, each cell is
enqueued at most once, so the loop needs at most
`width.toNat * height.toNat + 2` iterations in general, and with an in-bounds
start the queue is drained after at most `width * height` dequeues (one
iteration per dequeue plus the final empty-queue test). -/
theorem bfs_loop_terminates (cfg : MapConfig) :
    bfsAux cfg (bfsFuel cfg) [(cfg.start, [])] {cfg.start} ≠ none ∧
    (inBoundsB cfg cfg.start = true →
      bfsAux cfg (cfg.width.toNat * cfg.height.toNat + 1)
        [(cfg.start, [])] {cfg.start} ≠ none) := by
  constructor
  · intro hc
    rw [findPath_eq_bfsAux cfg] at hc
    exact absurd hc (by simp)
  · intro hin
    apply bfsAux_total
    have hmem : cfg.start ∈ boundsF cfg :=
      (inBoundsB_iff_mem_boundsF cfg _).mp hin
    have hcard : (boundsF cfg \ {cfg.start}).card =
        (boundsF cfg).card - 1 := by
      rw [Finset.sdiff_singleton_eq_erase, Finset.card_erase_of_mem hmem]
    have hpos : 0 < (boundsF cfg).card := Finset.card_pos.mpr ⟨_, hmem⟩
    rw [boundsF_card] at hcard hpos
    simp only [List.length_cons, List.length_nil]
    omega

/-- Witness for C8 on the open 2 by 2 grid with its in-bounds start: the loop
finishes within the `width * height + 1` iteration budget. -/
theorem bfs_loop_terminates_witness :
    inBoundsB ⟨2, 2, (0, 0), (1, 1), []⟩ (0, 0) = true ∧
    bfsAux ⟨2, 2, (0, 0), (1, 1), []⟩ 5 [((0, 0), [])] {(0, 0)} ≠ none :=
  ⟨by decide, (bfs_loop_terminates ⟨2, 2, (0, 0), (1, 1), []⟩).2 (by decide)⟩

/-- C3: the run consumes the command list left to right and stops at the
first terminal outcome: at most the first `ms.length` outcomes are produced,
no outcome before the last one is terminal, an early stop can only happen
because the last outcome is terminal, and when the run ends on a trap or on
the goal the final position is the stepped-onto trap or goal cell — the move
is committed before the run is reported as ended. -/
theorem run_stops_at_first_terminal (ctx : GameContext) (st : RobotState)
    (ms : List String) (h : st.isGameFinished = false) :
    (runMoveSequence ctx st ms).2.length ≤ ms.length ∧
    (∀ o ∈ (runMoveSequence ctx st ms).2.dropLast, isTerminalB o = false) ∧
    ((runMoveSequence ctx st ms).2.length < ms.length →
      ∃ o, (runMoveSequence ctx st ms).2.getLast? = some o ∧
        isTerminalB o = true) ∧
    ((runMoveSequence ctx st ms).2.getLast? =
        some MovementOutcome.triggeredTrap →
      (runMoveSequence ctx st ms).1.pos ∈ ctx.trapPositions) ∧
    ((runMoveSequence ctx st ms).2.getLast? =
        some MovementOutcome.reachedGoal →
      (runMoveSequence ctx st ms).1.pos = ctx.positionEnd) :=
  runMoveSequence_spec ctx ms st h

/-- Witness for C3: on a 4 by 1 corridor with the goal two cells to the
right, the path right-right-right produces exactly the outcomes
`[moved, reachedGoal]` — the third command is never executed — and the run
ends with the robot on the goal cell. -/
theorem run_stops_at_first_terminal_witness :
    (RobotState.mk (0, 0) false).isGameFinished = false ∧
    (runMoveSequence (GameContext.mk 4 1 [] [] (2, 0))
        (RobotState.mk (0, 0) false) ["→", "→", "→"]).2 =
      [MovementOutcome.moved, MovementOutcome.reachedGoal] ∧
    ((runMoveSequence (GameContext.mk 4 1 [] [] (2, 0))
        (RobotState.mk (0, 0) false) ["→", "→", "→"]).2.getLast? =
          some MovementOutcome.reachedGoal →
      (runMoveSequence (GameContext.mk 4 1 [] [] (2, 0))
        (RobotState.mk (0, 0) false) ["→", "→", "→"]).1.pos =
          (GameContext.mk 4 1 [] [] (2, 0)).positionEnd) :=
  ⟨rfl, by decide,
    (run_stops_at_first_terminal (GameContext.mk 4 1 [] [] (2, 0))
      (RobotState.mk (0, 0) false) ["→", "→", "→"] rfl).2.2.2.2⟩

/-- C4: a step whose computed target is out of bounds or an obstacle cell
leaves the state exactly unchanged with the corresponding blocked outcome,
repeating the identical step from the resulting (identical) state yields the
identical result, and the blocked step is not terminal: in a run the next
command of the path is still executed. -/
theorem blocked_step_is_noop (ctx : GameContext) (st : RobotState)
    (d : String) (dx dz : ℤ) (ms : List String)
    (hd : directionConfig d = some (dx, dz)) :
    (isOutOfBounds ctx (st.pos.1 + dx, st.pos.2 + dz) = true →
      moveRobot ctx st d = (st, MovementOutcome.blockedByBounds)) ∧
    (isOutOfBounds ctx (st.pos.1 + dx, st.pos.2 + dz) = false →
      isObstacleAt ctx (st.pos.1 + dx, st.pos.2 + dz) = true →
      moveRobot ctx st d = (st, MovementOutcome.blockedByObstacle)) ∧
    (((moveRobot ctx st d).2 = MovementOutcome.blockedByBounds ∨
        (moveRobot ctx st d).2 = MovementOutcome.blockedByObstacle) →
      (moveRobot ctx st d).1 = st ∧
      moveRobot ctx (moveRobot ctx st d).1 d = moveRobot ctx st d ∧
      (st.isGameFinished = false →
        runMoveSequence ctx st (d :: ms) =
          ((runMoveSequence ctx st ms).1,
            (moveRobot ctx st d).2 :: (runMoveSequence ctx st ms).2))) := by
  refine ⟨?_, ?_, ?_⟩
  · intro hb
    simp [moveRobot, hd, hb]
  · intro hb ho
    simp [moveRobot, hd, hb, ho]
  · intro hblocked
    have hnoop : (moveRobot ctx st d).1 = st := by
      rcases moveRobot_cases ctx st d with ⟨-, heq⟩ |
        ⟨dx', dz', -, ⟨-, heq⟩ | ⟨-, -, heq⟩ | ⟨-, -, -, heq⟩ |
          ⟨-, -, -, -, heq⟩ | ⟨-, -, -, -, heq⟩⟩ <;>
        rw [heq] at hblocked ⊢ <;> simp_all
    refine ⟨hnoop, by rw [hnoop], ?_⟩
    intro hflag
    rw [runMoveSequence_cons_active ctx st d ms hflag, hnoop]

/-- Witness for C4: on the 4 by 1 corridor, stepping left from the origin is
blocked by the bounds and stepping right into an obstacle is blocked by the
obstacle; both leave the state untouched and the run continues. -/
theorem blocked_step_is_noop_witness :
    directionConfig "←" = some (-1, 0) ∧
    isOutOfBounds (GameContext.mk 4 1 [] [] (3, 0)) (0 + -1, 0 + 0) = true ∧
    moveRobot (GameContext.mk 4 1 [] [] (3, 0)) (RobotState.mk (0, 0) false)
      "←" = (RobotState.mk (0, 0) false, MovementOutcome.blockedByBounds) ∧
    directionConfig "→" = some (1, 0) ∧
    isOutOfBounds (GameContext.mk 4 1 [(1, 0)] [] (3, 0)) (0 + 1, 0 + 0)
      = false ∧
    isObstacleAt (GameContext.mk 4 1 [(1, 0)] [] (3, 0)) (0 + 1, 0 + 0)
      = true ∧
    moveRobot (GameContext.mk 4 1 [(1, 0)] [] (3, 0))
      (RobotState.mk (0, 0) false) "→" =
      (RobotState.mk (0, 0) false, MovementOutcome.blockedByObstacle) :=
  ⟨by decide, by decide,
    (blocked_step_is_noop (GameContext.mk 4 1 [] [] (3, 0))
      (RobotState.mk (0, 0) false) "←" (-1) 0 [] (by decide)).1 (by decide),
    by decide, by decide, by decide,
    (blocked_step_is_noop (GameContext.mk 4 1 [(1, 0)] [] (3, 0))
      (RobotState.mk (0, 0) false) "→" 1 0 [] (by decide)).2.1 (by decide)
      (by decide)⟩

/-- C10: a direction string other than the four arrow tokens is silently
skipped by the executor (after a logged warning): the step returns the state
unchanged — same position and same game-finished flag — with the
`unknownDirection` outcome reified for that branch, and in a run the
remaining commands are still executed. -/
theorem unknown_direction_token_skipped (ctx : GameContext) (st : RobotState)
    (d : String) (ms : List String)
    (h1 : d ≠ "→") (h2 : d ≠ "←") (h3 : d ≠ "↑") (h4 : d ≠ "↓") :
    moveRobot ctx st d = (st, MovementOutcome.unknownDirection) ∧
    (st.isGameFinished = false →
      runMoveSequence ctx st (d :: ms) =
        ((runMoveSequence ctx st ms).1,
          MovementOutcome.unknownDirection ::
            (runMoveSequence ctx st ms).2)) := by
  have hnone : directionConfig d = none := by
    simp [directionConfig, h1, h2, h3, h4]
  have hstep : moveRobot ctx st d = (st, MovementOutcome.unknownDirection) :=
    by simp [moveRobot, hnone]
  refine ⟨hstep, ?_⟩
  intro hflag
  rw [runMoveSequence_cons_active ctx st d ms hflag, hstep]

/-- Witness for C10 with the malformed token `"x"`: the step is a no-op with
the `unknownDirection` outcome and the rest of the sequence still runs (here
a later right-step that does move). -/
theorem unknown_direction_token_skipped_witness :
    ("x" ≠ "→" ∧ "x" ≠ "←" ∧ "x" ≠ "↑" ∧ "x" ≠ "↓") ∧
    moveRobot (GameContext.mk 4 1 [] [] (3, 0)) (RobotState.mk (0, 0) false)
      "x" = (RobotState.mk (0, 0) false, MovementOutcome.unknownDirection) ∧
    runMoveSequence (GameContext.mk 4 1 [] [] (3, 0))
        (RobotState.mk (0, 0) false) ["x", "→"] =
      ((runMoveSequence (GameContext.mk 4 1 [] [] (3, 0))
          (RobotState.mk (0, 0) false) ["→"]).1,
        MovementOutcome.unknownDirection ::
          (runMoveSequence (GameContext.mk 4 1 [] [] (3, 0))
            (RobotState.mk (0, 0) false) ["→"]).2) :=
  ⟨⟨by decide, by decide, by decide, by decide⟩,
    (unknown_direction_token_skipped (GameContext.mk 4 1 [] [] (3, 0))
      (RobotState.mk (0, 0) false) "x" ["→"] (by decide) (by decide)
      (by decide) (by decide)).1,
    (unknown_direction_token_skipped (GameContext.mk 4 1 [] [] (3, 0))
      (RobotState.mk (0, 0) false) "x" ["→"] (by decide) (by decide)
      (by decide) (by decide)).2 rfl⟩

/-- C6: when start equals goal, `findPath` returns the empty path — a
success value distinct from the `none` NotFound result — and running an
empty path produces zero outcome records and leaves the state at its initial
value. -/
theorem empty_path_round_trip (cfg : MapConfig) (ctx : GameContext)
    (st : RobotState) :
    (cfg.start = cfg.goal → findPath cfg = some []) ∧
    runMoveSequence ctx st [] = (st, []) :=
  ⟨findPath_start_eq_goal cfg, rfl⟩

/-- Witness for C6 on a 3 by 3 grid whose start and goal coincide. -/
theorem empty_path_round_trip_witness :
    (MapConfig.mk 3 3 (1, 1) (1, 1) []).start =
      (MapConfig.mk 3 3 (1, 1) (1, 1) []).goal ∧
    findPath ⟨3, 3, (1, 1), (1, 1), []⟩ = some [] ∧
    runMoveSequence (GameContext.mk 3 3 [] [] (1, 1))
      (RobotState.mk (1, 1) false) [] = (RobotState.mk (1, 1) false, []) :=
  ⟨rfl,
    (empty_path_round_trip ⟨3, 3, (1, 1), (1, 1), []⟩
      (GameContext.mk 3 3 [] [] (1, 1)) (RobotState.mk (1, 1) false)).1 rfl,
    (empty_path_round_trip ⟨3, 3, (1, 1), (1, 1), []⟩
      (GameContext.mk 3 3 [] [] (1, 1)) (RobotState.mk (1, 1) false)).2⟩

/-- Counterexample for C5: `findPath` has no InvalidInput error kind at all —
its result type carries only a path or `null`.  A zero-area grid with
coinciding start and goal is answered with the successful empty path, and an
out-of-bounds goal is answered with the plain `none`, the very same value as
the ordinary NotFound result, so the two cases are not distinguishable by
the caller. -/
theorem findPath_no_invalid_input_counterexample :
    findPath ⟨0, 0, (0, 0), (0, 0), []⟩ = some [] ∧
    findPath ⟨1, 1, (0, 0), (5, 5), []⟩ = none := by decide

/-- C5 as amended: `findPath` performs no input validation and signals no
InvalidInput: when start equals goal it returns the empty path even on a
zero-area grid, and an unusable goal cell (out of bounds or trap-blocked)
distinct from the start yields the same `none` as the ordinary no-route
result. -/
theorem findPath_does_not_reject_invalid_input (cfg : MapConfig) :
    (cfg.start = cfg.goal → findPath cfg = some []) ∧
    (okCellB cfg cfg.goal = false → cfg.start ≠ cfg.goal →
      findPath cfg = none) :=
  ⟨findPath_start_eq_goal cfg, findPath_bad_goal_none cfg⟩

/-- Witness for the amended C5, applied to the zero-area grid and to the
out-of-bounds-goal grid of the counterexample. -/
theorem findPath_does_not_reject_invalid_input_witness :
    (MapConfig.mk 0 0 (0, 0) (0, 0) []).start =
      (MapConfig.mk 0 0 (0, 0) (0, 0) []).goal ∧
    findPath ⟨0, 0, (0, 0), (0, 0), []⟩ = some [] ∧
    okCellB ⟨1, 1, (0, 0), (5, 5), []⟩ (5, 5) = false ∧
    findPath ⟨1, 1, (0, 0), (5, 5), []⟩ = none :=
  ⟨rfl,
    (findPath_does_not_reject_invalid_input ⟨0, 0, (0, 0), (0, 0), []⟩).1 rfl,
    by decide,
    (findPath_does_not_reject_invalid_input ⟨1, 1, (0, 0), (5, 5), []⟩).2
      (by decide) (by decide)⟩

/-- Counterexample for C7: the claim asserts that the cited `findPath` code
explores candidate moves in the fixed order Right, Left, Down, Up, but the
map-1 variant (`src/map-1/map.js` lines 34-40) enumerates its neighbour
candidates in the order Up, Down, Left, Right, and on the open 2 by 2 grid
this shows in the output: the map-1 BFS reaches the far corner down-first,
while the map-2 engine — which really is Right, Left, Down, Up — returns the
right-first path. -/
theorem exploration_order_counterexample :
    Map1.neighbors 0 0 = [(0, -1), (0, 1), (-1, 0), (1, 0)] ∧
    Map1.neighbors 0 0 ≠ [(1, 0), (-1, 0), (0, 1), (0, -1)] ∧
    Map1.findPath (0, 0) (1, 1) [['.', '.'], ['.', '.']] =
      some [(0, 0), (0, 1), (1, 1)] ∧
    findPath ⟨2, 2, (0, 0), (1, 1), []⟩ = some ["→", "↓"] := by decide

/-- C7 as amended: both pathfinders are deterministic — equal inputs give
equal outputs, the embedding being a pure function of its arguments like the
source, which consults no randomness or external state — and each explores
candidates from a dequeued cell in its own fixed order: Right, Left, Down,
Up for the map-2 `findPath`, but Up, Down, Left, Right for the map-1
variant. -/
theorem exploration_order_by_variant :
    (∀ cfg cfg' : MapConfig, cfg = cfg' → findPath cfg = findPath cfg') ∧
    (dirs.map fun d => (d.dx, d.dz, d.name)) =
      [(1, 0, "→"), (-1, 0, "←"), (0, 1, "↓"), (0, -1, "↑")] ∧
    (∀ x y : ℤ, Map1.neighbors x y =
      [(x, y - 1), (x, y + 1), (x - 1, y), (x + 1, y)]) ∧
    (∀ (s e : ℤ × ℤ) (l l' : List (List Char)), l = l' →
      Map1.findPath s e l = Map1.findPath s e l') := by
  refine ⟨?_, by decide, fun x y => rfl, ?_⟩
  · intro cfg cfg' h
    rw [h]
  · intro s e l l' h
    rw [h]

/-- Witness for the amended C7: determinism applied to two syntactically
separate but equal copies of the open 2 by 2 configuration. -/
theorem exploration_order_by_variant_witness :
    (MapConfig.mk 2 2 (0, 0) (1, 1) [] = MapConfig.mk 2 2 (0, 0) (1, 1) []) ∧
    findPath ⟨2, 2, (0, 0), (1, 1), []⟩ =
      findPath ⟨2, 2, (0, 0), (1, 1), []⟩ ∧
    Map1.findPath (0, 0) (1, 1) [['.', '.'], ['.', '.']] =
      Map1.findPath (0, 0) (1, 1) [['.', '.'], ['.', '.']] :=
  ⟨rfl,
    (exploration_order_by_variant).1 (MapConfig.mk 2 2 (0, 0) (1, 1) [])
      (MapConfig.mk 2 2 (0, 0) (1, 1) []) rfl,
    (exploration_order_by_variant).2.2.2 (0, 0) (1, 1)
      [['.', '.'], ['.', '.']] [['.', '.'], ['.', '.']] rfl⟩

/-- C9: the move extraction applied to the oracle reply returns only
nonempty strings made of the four recognized arrow tokens — every other
character is excluded — and a reply containing no arrow at all yields the
distinguishable `none` failure, never an empty list. -/
theorem extracted_moves_only_arrow_tokens (s : String) (ms : List String) :
    (extractRouteMoves s = some ms →
      ms ≠ [] ∧ ∀ m ∈ ms, m.toList ≠ [] ∧
        ∀ c ∈ m.toList, isArrowChar c = true) ∧
    ((∀ c ∈ s.toList, isArrowChar c = false) →
      extractRouteMoves s = none) :=
  ⟨extractRouteMoves_some s ms, extractRouteMoves_no_arrow s⟩

/-- Witness for C9: a mixed reply is reduced to its two arrow runs, all of
whose characters are arrows, and an arrow-free reply yields `none`. -/
theorem extracted_moves_only_arrow_tokens_witness :
    extractRouteMoves "abc↑, →→!x" = some ["↑", "→→"] ∧
    (["↑", "→→"] ≠ ([] : List String) ∧
      ∀ m ∈ ["↑", "→→"], m.toList ≠ [] ∧
        ∀ c ∈ m.toList, isArrowChar c = true) ∧
    (∀ c ∈ ("hello" : String).toList, isArrowChar c = false) ∧
    extractRouteMoves "hello" = none :=
  ⟨by decide,
    (extracted_moves_only_arrow_tokens "abc↑, →→!x" ["↑", "→→"]).1
      (by decide),
    by decide,
    (extracted_moves_only_arrow_tokens "hello" []).2 (by decide)⟩
